import Mathlib

/-!
# Verification of the `bag` multiset library

The repository provides an unordered multiset (`Bag<E>`), implemented as a
`HashMap<E, usize>` from elements to occurrence counts, in two near-duplicate
variants (`src/bag/mod.rs` with `insert`, `src/lib.rs` with `put`).

We model the backing `HashMap<E, usize>` as an association list
`List (α × Nat)` whose key order is irrelevant for lookups; bags reachable by
the API keep their keys pairwise distinct, which is the `WF` invariant below.
All operations are translated one-for-one from the Rust source:

* `HashMap::get`            → `lookupCount`
* the `entry`-based insert  → `insertEntry` (Vacant → fresh entry with count 1,
                              Occupied → increment in place)
* `Bag::len`                → fold of `+` over the stored counts
* `Bag::occurrence`         → `get(..).map_or(0, |&x| x)`
* `Bag::frequency`/`distinct` → the pair / key enumerations of the map
* `FromIterator`            → `Bag.ofList`, folding `insert` over a sequence
* the `bigram!` macro       → `bigram`, folding `insert` over `windows(2)`
* the derived `PartialEq`   → `Bag.mapEquiv` (equal sizes, and every pair of
                              the left map is present in the right map)
-/

/-- Lookup in the backing map: the count stored for key `e`, if present.
Models `HashMap::get` on the association-list representation. -/
def lookupCount {α : Type} [DecidableEq α] (e : α) : List (α × Nat) → Option Nat
  | [] => none
  | (k, v) :: rest => if k = e then some v else lookupCount e rest

/-- The `entry`-based insertion of both Rust variants: a vacant key gets a
fresh entry with count 1, an occupied key has its count incremented by one. -/
def insertEntry {α : Type} [DecidableEq α] (e : α) : List (α × Nat) → List (α × Nat)
  | [] => [(e, 1)]
  | (k, v) :: rest => if k = e then (k, v + 1) :: rest else (k, v) :: insertEntry e rest

/-- `Bag<E>(HashMap<E, usize>)`: an unordered multiset, a map from elements to
their occurrence counts. -/
structure Bag (α : Type) where
  entries : List (α × Nat)

deriving instance DecidableEq for Bag

namespace Bag

variable {α : Type} [DecidableEq α]

/-- `Bag::new`: the empty bag. -/
def new : Bag α := ⟨[]⟩

/-- `self.0.get(&elem)`: the stored count for `e`, if any. -/
def get (b : Bag α) (e : α) : Option Nat := lookupCount e b.entries

/-- `Bag::insert` (mod.rs): increment the entry of `e`, creating it at 1. -/
def insert (b : Bag α) (e : α) : Bag α := ⟨insertEntry e b.entries⟩

/-- `Bag::put` (lib.rs): identical entry-based insertion, the other variant. -/
def put (b : Bag α) (e : α) : Bag α := ⟨insertEntry e b.entries⟩

/-- `Bag::len`: `self.0.values().fold(0, |a, &b| a + b)` — the total number of
logical elements, duplicates included. -/
def len (b : Bag α) : Nat := b.entries.foldl (fun a p => a + p.2) 0

/-- `Bag::occurrence`: `self.0.get(&elem).map_or(0, |&x| x)`. -/
def occurrence (b : Bag α) (e : α) : Nat := (b.get e).getD 0

/-- `Bag::is_empty` (lib.rs): `self.len() == 0`. -/
def is_empty (b : Bag α) : Bool := b.len == 0

/-- `Bag::frequency`: `self.0.iter()` — every `(element, count)` pair of the map. -/
def frequency (b : Bag α) : List (α × Nat) := b.entries

/-- `Bag::distinct`: `self.0.keys()` — every stored key. -/
def distinct (b : Bag α) : List α := b.entries.map Prod.fst

/-- `FromIterator for Bag`: build a bag by folding `insert` over a sequence. -/
def ofList (l : List α) : Bag α := l.foldl Bag.insert Bag.new

/-- `vec.windows(2)`, as pairs: the list of adjacent pairs of a sequence. -/
def windows2 {β : Type} : List β → List (β × β)
  | a :: b :: rest => (a, b) :: windows2 (b :: rest)
  | _ => []

/-- The `bigram!` macro: insert `(w[0], w[1])` for every window `w` of width 2
of the input sequence. -/
def bigram (l : List α) : Bag (α × α) := ofList (windows2 l)

/-- The derived `PartialEq` of `HashMap<E, usize>`: the maps have the same
number of entries and every pair of the left one is present in the right one. -/
def mapEquiv (b1 b2 : Bag α) : Bool :=
  b1.entries.length == b2.entries.length &&
    b1.entries.all fun p =>
      match b2.get p.1 with
      | some v => p.2 == v
      | none => false

/-- The representation invariant of a `HashMap`-backed bag: keys are pairwise
distinct, and (the data-model invariant) every stored count is positive. -/
def WF (b : Bag α) : Prop :=
  (b.entries.map Prod.fst).Nodup ∧ ∀ p ∈ b.entries, 0 < p.2

instance (b : Bag α) : Decidable (WF b) := by
  unfold WF; infer_instance

/-- The bags reachable from `Bag::new` by any sequence of insertions. -/
inductive Reachable : Bag α → Prop
  | new : Reachable Bag.new
  | insert (b : Bag α) (e : α) : Reachable b → Reachable (b.insert e)

end Bag

/-! ## Lemmas about the backing association list -/

namespace Bag

variable {α : Type} [DecidableEq α]

theorem lookupCount_insertEntry_self (e : α) (xs : List (α × Nat)) :
    lookupCount e (insertEntry e xs) = some ((lookupCount e xs).getD 0 + 1) := by
  induction xs with
  | nil => simp [insertEntry, lookupCount]
  | cons p rest ih =>
    obtain ⟨k, v⟩ := p
    by_cases hk : k = e
    · simp [insertEntry, lookupCount, hk]
    · simp [insertEntry, lookupCount, hk, ih]

theorem lookupCount_insertEntry_ne {e2 e : α} (h : e2 ≠ e) (xs : List (α × Nat)) :
    lookupCount e2 (insertEntry e xs) = lookupCount e2 xs := by
  induction xs with
  | nil => simp [insertEntry, lookupCount, h.symm]
  | cons p rest ih =>
    obtain ⟨k, v⟩ := p
    by_cases hk : k = e
    · subst hk
      simp [insertEntry, lookupCount, h.symm]
    · by_cases hk2 : k = e2
      · simp [insertEntry, lookupCount, hk, hk2, h]
      · simp [insertEntry, lookupCount, hk, hk2, ih]

theorem lookupCount_eq_none_iff (e : α) (xs : List (α × Nat)) :
    lookupCount e xs = none ↔ e ∉ xs.map Prod.fst := by
  induction xs with
  | nil => simp [lookupCount]
  | cons p rest ih =>
    obtain ⟨k, v⟩ := p
    by_cases hk : k = e
    · subst hk
      simp [lookupCount]
    · simp [lookupCount, hk, Ne.symm hk, ih]

theorem mem_of_lookupCount_eq_some {e : α} {v : Nat} {xs : List (α × Nat)} :
    lookupCount e xs = some v → (e, v) ∈ xs := by
  induction xs with
  | nil => simp [lookupCount]
  | cons p rest ih =>
    obtain ⟨k, w⟩ := p
    by_cases hk : k = e
    · subst hk
      intro hx
      simp [lookupCount] at hx
      subst hx
      exact List.mem_cons_self _ _
    · simp only [lookupCount, if_neg hk]
      intro hx
      exact List.mem_cons_of_mem _ (ih hx)

theorem lookupCount_eq_some_of_mem {e : α} {v : Nat} {xs : List (α × Nat)}
    (hnd : (xs.map Prod.fst).Nodup) (hmem : (e, v) ∈ xs) :
    lookupCount e xs = some v := by
  induction xs with
  | nil => simp at hmem
  | cons p rest ih =>
    obtain ⟨k, w⟩ := p
    simp only [List.map_cons, List.nodup_cons] at hnd
    rcases List.mem_cons.1 hmem with h | h
    · obtain ⟨rfl, rfl⟩ := Prod.mk.injEq .. ▸ h
      simp [lookupCount]
    · have hk : k ≠ e := by
        rintro rfl
        exact hnd.1 (List.mem_map.2 ⟨(k, v), h, rfl⟩)
      simp [lookupCount, hk, ih hnd.2 h]

theorem mem_map_fst_insertEntry (x e : α) (xs : List (α × Nat)) :
    x ∈ (insertEntry e xs).map Prod.fst ↔ x ∈ xs.map Prod.fst ∨ x = e := by
  induction xs with
  | nil => simp [insertEntry, eq_comm]
  | cons p rest ih =>
    obtain ⟨k, v⟩ := p
    by_cases hk : k = e
    · subst hk
      by_cases hx : x = k <;> simp [insertEntry, hx, or_comm]
    · simp only [insertEntry, if_neg hk, List.map_cons, List.mem_cons, ih]
      tauto

theorem nodup_insertEntry {e : α} {xs : List (α × Nat)}
    (h : (xs.map Prod.fst).Nodup) : ((insertEntry e xs).map Prod.fst).Nodup := by
  induction xs with
  | nil => simp [insertEntry]
  | cons p rest ih =>
    obtain ⟨k, v⟩ := p
    simp only [List.map_cons, List.nodup_cons] at h
    by_cases hk : k = e
    · simp only [insertEntry, if_pos hk, List.map_cons, List.nodup_cons]
      exact ⟨h.1, h.2⟩
    · simp only [insertEntry, if_neg hk, List.map_cons, List.nodup_cons]
      refine ⟨?_, ih h.2⟩
      rw [mem_map_fst_insertEntry]
      rintro (hc | rfl)
      · exact h.1 hc
      · exact hk rfl

theorem pos_insertEntry {e : α} {xs : List (α × Nat)}
    (h : ∀ p ∈ xs, 0 < p.2) : ∀ p ∈ insertEntry e xs, 0 < p.2 := by
  induction xs with
  | nil =>
    intro p hp
    simp only [insertEntry, List.mem_singleton] at hp
    simp [hp]
  | cons q rest ih =>
    obtain ⟨k, v⟩ := q
    intro p hp
    by_cases hk : k = e
    · simp only [insertEntry, if_pos hk, List.mem_cons] at hp
      rcases hp with rfl | hp
      · simp
      · exact h p (List.mem_cons_of_mem _ hp)
    · simp only [insertEntry, if_neg hk, List.mem_cons] at hp
      rcases hp with rfl | hp
      · exact h _ (List.mem_cons_self _ _)
      · exact ih (fun q hq => h q (List.mem_cons_of_mem _ hq)) p hp

theorem foldl_add_init {β : Type} (xs : List (β × Nat)) (n : Nat) :
    xs.foldl (fun a p => a + p.2) n = n + xs.foldl (fun a p => a + p.2) 0 := by
  induction xs generalizing n with
  | nil => simp
  | cons p rest ih =>
    simp only [List.foldl_cons]
    rw [ih (n + p.2), ih (0 + p.2)]
    omega

theorem sum_insertEntry (e : α) (xs : List (α × Nat)) :
    (insertEntry e xs).foldl (fun a p => a + p.2) 0 =
      xs.foldl (fun a p => a + p.2) 0 + 1 := by
  induction xs with
  | nil => simp [insertEntry]
  | cons p rest ih =>
    obtain ⟨k, v⟩ := p
    by_cases hk : k = e
    · simp only [insertEntry, if_pos hk, List.foldl_cons]
      rw [foldl_add_init rest (0 + (v + 1)), foldl_add_init rest (0 + v)]
      omega
    · simp only [insertEntry, if_neg hk, List.foldl_cons]
      rw [foldl_add_init (insertEntry e rest) (0 + v), ih, foldl_add_init rest (0 + v)]
      omega

end Bag

/-! ## Lemmas about the bag operations -/

namespace Bag

variable {α : Type} [DecidableEq α]

theorem put_eq_insert (b : Bag α) (e : α) : b.put e = b.insert e := rfl

theorem occurrence_insert_self (b : Bag α) (e : α) :
    (b.insert e).occurrence e = b.occurrence e + 1 := by
  simp [occurrence, get, insert, lookupCount_insertEntry_self]

theorem occurrence_insert_ne (b : Bag α) {e2 e : α} (h : e2 ≠ e) :
    (b.insert e).occurrence e2 = b.occurrence e2 := by
  simp [occurrence, get, insert, lookupCount_insertEntry_ne h]

theorem len_insert (b : Bag α) (e : α) : (b.insert e).len = b.len + 1 := by
  simp [len, insert, sum_insertEntry]

omit [DecidableEq α] in
theorem len_new : (new : Bag α).len = 0 := rfl

theorem occurrence_new (e : α) : (new : Bag α).occurrence e = 0 := rfl

omit [DecidableEq α] in
theorem WF_new : WF (new : Bag α) := by
  constructor <;> simp [new]

theorem WF_insert {b : Bag α} (h : WF b) (e : α) : WF (b.insert e) :=
  ⟨nodup_insertEntry h.1, pos_insertEntry h.2⟩

theorem ofList_cons (a : α) (l : List α) (b : Bag α) :
    (a :: l).foldl Bag.insert b = l.foldl Bag.insert (b.insert a) := rfl

theorem occurrence_foldl (l : List α) (b : Bag α) (e : α) :
    (l.foldl Bag.insert b).occurrence e = b.occurrence e + l.count e := by
  induction l generalizing b with
  | nil => simp
  | cons a t ih =>
    rw [ofList_cons, ih]
    by_cases ha : a = e
    · subst ha
      rw [occurrence_insert_self]
      simp [List.count_cons]
      omega
    · rw [occurrence_insert_ne b (Ne.symm ha)]
      simp [List.count_cons, ha]

theorem occurrence_ofList (l : List α) (e : α) :
    (ofList l).occurrence e = l.count e := by
  rw [ofList, occurrence_foldl, occurrence_new, Nat.zero_add]

theorem len_foldl (l : List α) (b : Bag α) :
    (l.foldl Bag.insert b).len = b.len + l.length := by
  induction l generalizing b with
  | nil => simp
  | cons a t ih =>
    rw [ofList_cons, ih, len_insert, List.length_cons]
    omega

theorem len_ofList (l : List α) : (ofList l).len = l.length := by
  rw [ofList, len_foldl, len_new, Nat.zero_add]

theorem WF_foldl (l : List α) {b : Bag α} (h : WF b) : WF (l.foldl Bag.insert b) := by
  induction l generalizing b with
  | nil => exact h
  | cons a t ih => exact ofList_cons a t b ▸ ih (WF_insert h a)

theorem WF_ofList (l : List α) : WF (ofList l : Bag α) := WF_foldl l WF_new

theorem Reachable_foldl (l : List α) {b : Bag α} (h : Reachable b) :
    Reachable (l.foldl Bag.insert b) := by
  induction l generalizing b with
  | nil => exact h
  | cons a t ih => exact ofList_cons a t b ▸ ih (Reachable.insert b a h)

theorem Reachable_ofList (l : List α) : Reachable (ofList l : Bag α) :=
  Reachable_foldl l Reachable.new

theorem occurrence_eq_zero_iff {b : Bag α} (e : α) :
    b.occurrence e = 0 ↔ b.get e = none ∨ b.get e = some 0 := by
  unfold occurrence
  cases h : b.get e <;> simp

theorem get_eq_some_iff_of_WF {b : Bag α} (h : WF b) (e : α) (v : Nat) :
    b.get e = some v ↔ (e, v) ∈ b.entries :=
  ⟨mem_of_lookupCount_eq_some, lookupCount_eq_some_of_mem h.1⟩

theorem occurrence_pos_iff_of_WF {b : Bag α} (h : WF b) (e : α) :
    0 < b.occurrence e ↔ e ∈ b.entries.map Prod.fst := by
  unfold occurrence
  cases hg : b.get e with
  | none =>
    simp only [Option.getD_none]
    rw [get] at hg
    rw [lookupCount_eq_none_iff] at hg
    simp [hg]
  | some v =>
    have hv : 0 < v := h.2 (e, v) ((get_eq_some_iff_of_WF h e v).1 hg)
    simp only [Option.getD_some]
    refine iff_of_true hv ?_
    exact List.mem_map.2 ⟨(e, v), (get_eq_some_iff_of_WF h e v).1 hg, rfl⟩

end Bag

namespace Bag

variable {α : Type} [DecidableEq α]

omit [DecidableEq α] in
theorem len_mk_cons (k : α) (v : Nat) (rest : List (α × Nat)) :
    (Bag.mk ((k, v) :: rest)).len = v + (Bag.mk rest).len := by
  simp only [len, List.foldl_cons]
  rw [foldl_add_init rest (0 + v)]
  omega

omit [DecidableEq α] in
theorem len_eq_zero_iff_of_WF {b : Bag α} (h : WF b) : b.len = 0 ↔ b.entries = [] := by
  obtain ⟨xs⟩ := b
  cases xs with
  | nil => simp [len]
  | cons p rest =>
    obtain ⟨k, v⟩ := p
    have hv : 0 < v := h.2 (k, v) (List.mem_cons_self _ _)
    rw [len_mk_cons]
    exact iff_of_false (by omega) (by simp)

theorem sum_occurrence_entries (xs : List (α × Nat))
    (hnd : (xs.map Prod.fst).Nodup) :
    ((xs.map Prod.fst).map fun e => (lookupCount e xs).getD 0).sum =
      xs.foldl (fun a p => a + p.2) 0 := by
  induction xs with
  | nil => simp
  | cons p rest ih =>
    obtain ⟨k, v⟩ := p
    simp only [List.map_cons, List.nodup_cons] at hnd
    have hmapeq :
        ((rest.map Prod.fst).map fun e => (lookupCount e ((k, v) :: rest)).getD 0) =
          (rest.map Prod.fst).map fun e => (lookupCount e rest).getD 0 := by
      refine List.map_congr_left fun e he => ?_
      have hke : k ≠ e := by
        rintro rfl
        exact hnd.1 he
      simp [lookupCount, hke]
    simp only [List.map_cons, List.sum_cons, hmapeq, ih hnd.2]
    have hk : lookupCount k ((k, v) :: rest) = some v := by
      simp [lookupCount]
    rw [hk]
    simp only [Option.getD_some, List.foldl_cons]
    rw [foldl_add_init rest (0 + v)]
    omega

end Bag

namespace Bag

variable {α : Type} [DecidableEq α]

theorem matchCond_iff (b2 : Bag α) (p : α × Nat) :
    (match b2.get p.1 with
      | some v => p.2 == v
      | none => false) = true ↔ b2.get p.1 = some p.2 := by
  cases hg : b2.get p.1 with
  | none =>
    show false = true ↔ none = some p.2
    simp
  | some v =>
    show (p.2 == v) = true ↔ some v = some p.2
    simp only [Option.some.injEq, beq_iff_eq]
    exact eq_comm

theorem keys_length_eq_length {β : Type} (b : Bag β) :
    (b.entries.map Prod.fst).length = b.entries.length :=
  List.length_map _ _

theorem mapEquiv_true_iff {b1 b2 : Bag α} (h1 : WF b1) (h2 : WF b2) :
    mapEquiv b1 b2 = true ↔ ∀ e, b1.occurrence e = b2.occurrence e := by
  rw [mapEquiv, Bool.and_eq_true, beq_iff_eq, List.all_eq_true]
  constructor
  · rintro ⟨hlen, hall⟩ e
    have hall2 : ∀ p ∈ b1.entries, b2.get p.1 = some p.2 :=
      fun p hp => (matchCond_iff b2 p).1 (hall p hp)
    have hsub : b1.entries.map Prod.fst ⊆ b2.entries.map Prod.fst := by
      intro x hx
      obtain ⟨p, hp, rfl⟩ := List.mem_map.1 hx
      have := mem_of_lookupCount_eq_some (hall2 p hp)
      exact List.mem_map.2 ⟨(p.1, p.2), this, rfl⟩
    have hperm : (b1.entries.map Prod.fst).Perm (b2.entries.map Prod.fst) :=
      (List.subperm_of_subset h1.1 hsub).perm_of_length_le
        (by rw [keys_length_eq_length, keys_length_eq_length, hlen])
    cases hg1 : b1.get e with
    | some v =>
      have hmem : (e, v) ∈ b1.entries := mem_of_lookupCount_eq_some hg1
      have hg2 : b2.get e = some v := hall2 (e, v) hmem
      simp [occurrence, hg1, hg2]
    | none =>
      have hn1 : e ∉ b1.entries.map Prod.fst := (lookupCount_eq_none_iff e _).1 hg1
      have hn2 : e ∉ b2.entries.map Prod.fst := fun hc => hn1 (hperm.mem_iff.2 hc)
      have hg2 : b2.get e = none := (lookupCount_eq_none_iff e _).2 hn2
      simp [occurrence, hg1, hg2]
  · intro hocc
    have hkeys : ∀ x, x ∈ b1.entries.map Prod.fst ↔ x ∈ b2.entries.map Prod.fst := by
      intro x
      rw [← occurrence_pos_iff_of_WF h1, ← occurrence_pos_iff_of_WF h2, hocc x]
    have hperm : (b1.entries.map Prod.fst).Perm (b2.entries.map Prod.fst) :=
      (List.subperm_of_subset h1.1 fun x hx => (hkeys x).1 hx).perm_of_length_le
        (List.Subperm.length_le
          (List.subperm_of_subset h2.1 fun x hx => (hkeys x).2 hx))
    refine ⟨?_, fun p hp => (matchCond_iff b2 p).2 ?_⟩
    · rw [← keys_length_eq_length b1, ← keys_length_eq_length b2]
      exact hperm.length_eq
    · have hg1 : b1.get p.1 = some p.2 :=
        lookupCount_eq_some_of_mem h1.1 (Prod.mk.eta ▸ hp)
      have hpos : 0 < p.2 := h1.2 p hp
      have ho : b1.occurrence p.1 = p.2 := by simp [occurrence, hg1]
      cases hg2 : b2.get p.1 with
      | none =>
        have : b2.occurrence p.1 = 0 := by simp [occurrence, hg2]
        rw [hocc p.1, this] at ho
        omega
      | some w =>
        have : b2.occurrence p.1 = w := by simp [occurrence, hg2]
        rw [hocc p.1, this] at ho
        rw [ho]

end Bag

namespace Bag

variable {α : Type} [DecidableEq α]

omit [DecidableEq α] in
theorem windows2_eq_nil_of_short {l : List α} (h : l.length < 2) :
    windows2 l = [] := by
  match l with
  | [] => rfl
  | [a] => rfl
  | a :: b :: rest =>
    simp only [List.length_cons] at h
    omega

omit [DecidableEq α] in
theorem length_windows2 (l : List α) : (windows2 l).length = l.length - 1 := by
  induction l with
  | nil => rfl
  | cons a t ih =>
    cases t with
    | nil => rfl
    | cons b rest =>
      show ((a, b) :: windows2 (b :: rest)).length = (a :: b :: rest).length - 1
      rw [List.length_cons, ih]
      simp

theorem count_windows2 (l : List α) (p : α × α) :
    (windows2 l).countP (fun q => decide (q = p)) =
      (List.range l.length).countP fun i =>
        decide (l.get? i = some p.1 ∧ l.get? (i + 1) = some p.2) := by
  induction l with
  | nil => rfl
  | cons a t ih =>
    cases t with
    | nil =>
      show (0 : Nat) = (List.range 1).countP _
      simp [List.range_succ_eq_map, List.countP_cons, List.get?]
    | cons b rest =>
      show ((a, b) :: windows2 (b :: rest)).countP _ = _
      rw [List.countP_cons, List.length_cons, List.range_succ_eq_map,
        List.countP_cons, List.countP_map, ih]
      have hcomp :
          ((fun i =>
              decide ((a :: b :: rest).get? i = some p.1 ∧
                (a :: b :: rest).get? (i + 1) = some p.2)) ∘ Nat.succ) =
            fun i =>
              decide ((b :: rest).get? i = some p.1 ∧
                (b :: rest).get? (i + 1) = some p.2) := by
        funext i
        simp [Function.comp, List.get?_cons_succ]
      rw [hcomp]
      have hhead :
          (decide ((a :: b :: rest).get? 0 = some p.1 ∧
            (a :: b :: rest).get? (0 + 1) = some p.2) = true) ↔
            decide ((a, b) = p) = true := by
        obtain ⟨p1, p2⟩ := p
        simp only [List.get?_cons_zero, List.get?_cons_succ, decide_eq_true_eq,
          Prod.mk.injEq, Option.some.injEq]
      by_cases hab : decide ((a, b) = p) = true
      · rw [if_pos hab, if_pos (hhead.2 hab)]
      · rw [if_neg hab, if_neg fun hc => hab (hhead.1 hc)]

end Bag

/-! ## The claims -/

/-- C1: for every bag `b` and element `e`, inserting `e` (with `insert`, or
with the identical `put` variant) makes `occurrence e` exactly one greater
than before; if `e` was absent (occurrence 0), a fresh entry with count 1 is
created in the map. -/
theorem insert_increments_occurrence {α : Type} [DecidableEq α] (b : Bag α) (e : α) :
    (b.insert e).occurrence e = b.occurrence e + 1 ∧
      b.put e = b.insert e ∧
      (b.occurrence e = 0 → (b.insert e).get e = some 1) := by
  refine ⟨Bag.occurrence_insert_self b e, rfl, fun h0 => ?_⟩
  show lookupCount e (insertEntry e b.entries) = some 1
  rw [Bag.lookupCount_insertEntry_self]
  have h1 : (lookupCount e b.entries).getD 0 = 0 := h0
  rw [h1]

/-- Concrete instance of C1 with its hypothesis discharged. -/
theorem insert_increments_occurrence_witness :
    (Bag.ofList [3, 4] : Bag Nat).occurrence 7 = 0 ∧
      ((Bag.ofList [3, 4] : Bag Nat).insert 7).get 7 = some 1 :=
  ⟨by decide, (insert_increments_occurrence (Bag.ofList [3, 4]) 7).2.2 (by decide)⟩

/-- C2: for every well-formed bag, the sum of `occurrence e` over the distinct
elements `e` equals `len` (the total count), and the empty bag has total 0. -/
theorem occurrence_sums_to_total {α : Type} [DecidableEq α] (b : Bag α) (h : Bag.WF b) :
    (b.distinct.map b.occurrence).sum = b.len ∧ (Bag.new : Bag α).len = 0 := by
  refine ⟨?_, rfl⟩
  obtain ⟨xs⟩ := b
  exact Bag.sum_occurrence_entries xs h.1

/-- Concrete instance of C2 with its hypothesis discharged. -/
theorem occurrence_sums_to_total_witness :
    Bag.WF (Bag.ofList [1, 1, 2] : Bag Nat) ∧
      (((Bag.ofList [1, 1, 2] : Bag Nat).distinct.map
          (Bag.ofList [1, 1, 2] : Bag Nat).occurrence).sum =
          (Bag.ofList [1, 1, 2] : Bag Nat).len ∧
        (Bag.new : Bag Nat).len = 0) :=
  ⟨by decide, occurrence_sums_to_total (Bag.ofList [1, 1, 2]) (by decide)⟩

/-- C3: `occurrence` of an element never stored is 0 — both on the freshly
constructed empty bag and on any bag built from a sequence not containing the
element; `occurrence` is total (it has no error path, which the embedding
shows by returning a plain `Nat`). -/
theorem occurrence_absent_returns_zero {α : Type} [DecidableEq α] (e : α) :
    (Bag.new : Bag α).occurrence e = 0 ∧
      ∀ l : List α, e ∉ l → (Bag.ofList l).occurrence e = 0 := by
  refine ⟨rfl, fun l hl => ?_⟩
  rw [Bag.occurrence_ofList]
  exact List.count_eq_zero.2 hl

/-- Concrete instance of C3 with its hypothesis discharged. -/
theorem occurrence_absent_returns_zero_witness :
    (3 : Nat) ∉ [1, 2, 1] ∧ (Bag.ofList [1, 2, 1] : Bag Nat).occurrence 3 = 0 :=
  ⟨by decide, (occurrence_absent_returns_zero 3).2 [1, 2, 1] (by decide)⟩

/-- C4: in every bag reachable from `new` by insertions, every stored entry
has a strictly positive count; bulk construction (`ofList`, folding `insert`)
only produces reachable bags. -/
theorem reachable_counts_positive {α : Type} [DecidableEq α] :
    (∀ b : Bag α, Bag.Reachable b → ∀ p ∈ b.entries, 0 < p.2) ∧
      ∀ l : List α, Bag.Reachable (Bag.ofList l) := by
  constructor
  · intro b hb
    induction hb with
    | new =>
      intro p hp
      simp [Bag.new] at hp
    | insert b e hb ih => exact Bag.pos_insertEntry ih
  · exact Bag.Reachable_ofList

/-- Concrete instance of C4 with its hypothesis discharged. -/
theorem reachable_counts_positive_witness :
    Bag.Reachable (Bag.ofList [1, 1, 2] : Bag Nat) ∧
      ∀ p ∈ (Bag.ofList [1, 1, 2] : Bag Nat).entries, 0 < p.2 :=
  ⟨reachable_counts_positive.2 [1, 1, 2],
    reachable_counts_positive.1 _ (Bag.Reachable_ofList [1, 1, 2])⟩

/-- C5: bags built by inserting permutations of the same multiset compare
equal under the derived map equality, and for well-formed bags that equality
holds iff the occurrence of every element agrees (so differing in any count
makes them unequal). -/
theorem bag_equality_structural {α : Type} [DecidableEq α] (l1 l2 : List α)
    (b1 b2 : Bag α) (h1 : Bag.WF b1) (h2 : Bag.WF b2) :
    (l1.Perm l2 → Bag.mapEquiv (Bag.ofList l1) (Bag.ofList l2) = true) ∧
      (Bag.mapEquiv b1 b2 = true ↔ ∀ e, b1.occurrence e = b2.occurrence e) := by
  constructor
  · intro hperm
    rw [Bag.mapEquiv_true_iff (Bag.WF_ofList l1) (Bag.WF_ofList l2)]
    intro e
    rw [Bag.occurrence_ofList, Bag.occurrence_ofList]
    exact hperm.count_eq e
  · exact Bag.mapEquiv_true_iff h1 h2

/-- Concrete instance of C5 with its hypotheses discharged. -/
theorem bag_equality_structural_witness :
    Bag.mapEquiv (Bag.ofList [1, 2, 1]) (Bag.ofList [2, 1, 1] : Bag Nat) = true ∧
      (Bag.ofList [1, 2, 1] : Bag Nat).occurrence 1 =
        (Bag.ofList [2, 1, 1] : Bag Nat).occurrence 1 := by
  have h := bag_equality_structural [1, 2, 1] [2, 1, 1]
    (Bag.ofList [1, 2, 1] : Bag Nat) (Bag.ofList [2, 1, 1]) (by decide) (by decide)
  exact ⟨h.1 (by decide), h.2.1 (h.1 (by decide)) 1⟩

/-- C6: the bag built from any finite sequence of `n` elements (with any
repetition pattern) has total count `n`. -/
theorem ofList_len_eq_length {α : Type} [DecidableEq α] (l : List α) :
    (Bag.ofList l).len = l.length :=
  Bag.len_ofList l

/-- C7: the adjacent-pair (bigram) bag of a sequence is empty when the input
has fewer than 2 elements, has total count `n - 1` when the input has `n ≥ 2`
elements, and gives each pair an occurrence equal to the number of adjacent
index positions producing that pair. -/
theorem bigram_spec {α : Type} [DecidableEq α] (l : List α) :
    (l.length < 2 → Bag.bigram l = Bag.new) ∧
      (2 ≤ l.length → (Bag.bigram l).len = l.length - 1) ∧
      ∀ p : α × α,
        (Bag.bigram l).occurrence p =
          (List.range l.length).countP fun i =>
            decide (l.get? i = some p.1 ∧ l.get? (i + 1) = some p.2) := by
  refine ⟨fun hshort => ?_, fun _ => ?_, fun p => ?_⟩
  · rw [Bag.bigram, Bag.windows2_eq_nil_of_short hshort]
    rfl
  · rw [Bag.bigram, Bag.len_ofList, Bag.length_windows2]
  · rw [Bag.bigram, Bag.occurrence_ofList]
    show (Bag.windows2 l).countP (fun q => decide (q = p)) = _
    exact Bag.count_windows2 l p

/-- Concrete instance of C7 with its hypotheses discharged. -/
theorem bigram_spec_witness :
    (([5] : List Nat).length < 2 ∧ Bag.bigram [5] = (Bag.new : Bag (Nat × Nat))) ∧
      2 ≤ ([1, 2, 3] : List Nat).length ∧
        (Bag.bigram [1, 2, 3] : Bag (Nat × Nat)).len = [1, 2, 3].length - 1 :=
  ⟨⟨by decide, (bigram_spec [5]).1 (by decide)⟩,
    by decide, (bigram_spec [1, 2, 3]).2.1 (by decide)⟩

/-- C8: `is_empty` is true iff the total count is 0, and (for a well-formed
bag, whose stored counts are positive) iff the underlying map has no entries. -/
theorem is_empty_iff_len_zero {α : Type} [DecidableEq α] (b : Bag α) :
    (b.is_empty = true ↔ b.len = 0) ∧
      (Bag.WF b → (b.is_empty = true ↔ b.entries = [])) := by
  have hbe : b.is_empty = true ↔ b.len = 0 := by
    show (b.len == 0) = true ↔ b.len = 0
    exact beq_iff_eq
  exact ⟨hbe, fun h => hbe.trans (Bag.len_eq_zero_iff_of_WF h)⟩

/-- Concrete instance of C8 with its hypothesis discharged. -/
theorem is_empty_iff_len_zero_witness :
    Bag.WF (Bag.ofList [1] : Bag Nat) ∧
      ((Bag.ofList [1] : Bag Nat).is_empty = true ↔
        (Bag.ofList [1] : Bag Nat).entries = []) :=
  ⟨by decide, (is_empty_iff_len_zero (Bag.ofList [1])).2 (by decide)⟩

/-- C9: inserting `e` (with `insert` or the identical `put`) leaves the
occurrence of every other element `e2 ≠ e` unchanged. -/
theorem insert_preserves_other_occurrence {α : Type} [DecidableEq α] (b : Bag α)
    {e2 e : α} (h : e2 ≠ e) :
    (b.insert e).occurrence e2 = b.occurrence e2 ∧
      (b.put e).occurrence e2 = b.occurrence e2 :=
  ⟨Bag.occurrence_insert_ne b h, Bag.occurrence_insert_ne b h⟩

/-- Concrete instance of C9 with its hypothesis discharged. -/
theorem insert_preserves_other_occurrence_witness :
    (2 : Nat) ≠ 1 ∧
      ((Bag.ofList [1, 1, 2] : Bag Nat).insert 1).occurrence 2 =
        (Bag.ofList [1, 1, 2] : Bag Nat).occurrence 2 :=
  ⟨by decide, (insert_preserves_other_occurrence (Bag.ofList [1, 1, 2]) (by decide)).1⟩

/-- C10: for a well-formed bag, `frequency` enumerates one pair per distinct
stored element, every enumerated pair `(e, c)` satisfies `c = occurrence e`
and `c > 0`, and `distinct` enumerates exactly the same elements, each once. -/
theorem frequency_distinct_spec {α : Type} [DecidableEq α] (b : Bag α) (h : Bag.WF b) :
    (∀ p ∈ b.frequency, b.occurrence p.1 = p.2 ∧ 0 < p.2) ∧
      b.frequency.map Prod.fst = b.distinct ∧ b.distinct.Nodup := by
  refine ⟨fun p hp => ?_, rfl, h.1⟩
  have hmem : (p.1, p.2) ∈ b.entries := by
    rw [Prod.mk.eta]
    exact hp
  have hg : b.get p.1 = some p.2 := Bag.lookupCount_eq_some_of_mem h.1 hmem
  exact ⟨by simp [Bag.occurrence, hg], h.2 p hp⟩

/-- Concrete instance of C10 with its hypothesis discharged. -/
theorem frequency_distinct_spec_witness :
    Bag.WF (Bag.ofList [1, 1, 2] : Bag Nat) ∧
      ((∀ p ∈ (Bag.ofList [1, 1, 2] : Bag Nat).frequency,
          (Bag.ofList [1, 1, 2] : Bag Nat).occurrence p.1 = p.2 ∧ 0 < p.2) ∧
        (Bag.ofList [1, 1, 2] : Bag Nat).frequency.map Prod.fst =
          (Bag.ofList [1, 1, 2] : Bag Nat).distinct ∧
        (Bag.ofList [1, 1, 2] : Bag Nat).distinct.Nodup) :=
  ⟨by decide, frequency_distinct_spec (Bag.ofList [1, 1, 2]) (by decide)⟩
